import Mathlib

/-!
Verification development for the "File Hub" deduplicating file store.

The repository ships the React/TypeScript client (`fileService.ts`,
`FileList.tsx`, the storage-metrics dashboards); the server-side core
(Hasher, BlobStore, RecordCatalog, MetricsEngine) is described by the
specification but its code is not present.  Pure client functions
(`calculatePageCount`, `getPageRange`, `formatFileSize`, the filter state of
`FileList`) are embedded directly from the TypeScript source; the
server-side core is modelled from the specification, with each such
definition marked `Modelled from the spec:` in its doc comment.
-/

namespace FileHub

/-- Modelled from the spec: §4.1 requires a deterministic cryptographic
digest with negligible collision probability, so the fingerprint is modelled
as the content itself (a byte list), i.e. an ideal injective hasher.  The
payload size is the length of the byte list. -/
abbrev Content := List Nat

/-- Modelled from the spec: §3 Blob, `{content_hash, size_bytes,
storage_location, reference_count}`; `storage_location` is derived from the
fingerprint and carries no extra information, so it is omitted. -/
structure Blob where
  content_hash : Content
  size_bytes : Nat
  reference_count : Nat
deriving DecidableEq

/-- Modelled from the spec: §3 FileRecord, `{id, original_filename,
file_type, size_bytes, uploaded_at, content_hash, is_duplicate}`.
`uploaded_at` is a logical timestamp. -/
structure FileRecord where
  id : Nat
  original_filename : String
  file_type : String
  size_bytes : Nat
  uploaded_at : Nat
  content_hash : Content
  is_duplicate : Bool
deriving DecidableEq

/-- Modelled from the spec: §6 persisted state layout, a mapping from
fingerprint to blob metadata plus a mapping from record id to record
metadata; `nextId` and `clock` supply fresh ids and logical timestamps. -/
structure Store where
  blobs : List Blob
  records : List FileRecord
  nextId : Nat
  clock : Nat
deriving DecidableEq

/-- Modelled from the spec: the initial store holds no blobs and no
records. -/
def Store.empty : Store := ⟨[], [], 0, 0⟩

/-- Modelled from the spec: lookup of the blob stored under a fingerprint. -/
def Store.findBlob (s : Store) (h : Content) : Option Blob :=
  s.blobs.find? (fun b => b.content_hash == h)

namespace BlobStore

/-- Modelled from the spec: §4.2 `put(fingerprint, stream, size)`.  If a
blob with the fingerprint exists its `reference_count` is incremented and
`created = false` is returned; otherwise a new blob with
`reference_count = 1` is created and `created = true` is returned. -/
def put (s : Store) (c : Content) : Store × Bool :=
  match s.blobs.find? (fun b => b.content_hash == c) with
  | some _ =>
      ({ s with blobs := s.blobs.map (fun b =>
          if b.content_hash == c then
            { b with reference_count := b.reference_count + 1 }
          else b) }, false)
  | none =>
      ({ s with blobs := s.blobs ++ [⟨c, c.length, 1⟩] }, true)

/-- Modelled from the spec: §4.2 `release(fingerprint)` decrements the
blob's `reference_count` and removes the blob once the count reaches
zero. -/
def release (s : Store) (h : Content) : Store :=
  let dec := s.blobs.map (fun b =>
    if b.content_hash == h then
      { b with reference_count := b.reference_count - 1 }
    else b)
  { s with blobs :=
      dec.filter (fun b => !(b.content_hash == h) || b.reference_count != 0) }

end BlobStore

namespace RecordCatalog

/-- Modelled from the spec: §4.3 `create(filename, file_type, stream,
size)` invokes the hasher and `BlobStore.put`, then persists a record with
`is_duplicate = !created`.  Returns the new store, the record and the
`created` flag of the blob write. -/
def create (s : Store) (filename ftype : String) (c : Content) :
    Store × FileRecord × Bool :=
  let put := BlobStore.put s c
  let r : FileRecord :=
    ⟨s.nextId, filename, ftype, c.length, s.clock, c, !put.2⟩
  ({ put.1 with
     records := put.1.records ++ [r]
     nextId := s.nextId + 1
     clock := s.clock + 1 }, r, put.2)

/-- Modelled from the spec: §4.3 `delete(id)` fails with `NotFound` for an
unknown id, otherwise removes the record and releases its blob
reference. -/
def del (s : Store) (i : Nat) : Except String Store :=
  match s.records.find? (fun r => r.id == i) with
  | none => .error "NotFound"
  | some r =>
      .ok { (BlobStore.release s r.content_hash) with
            records := s.records.eraseP (fun q => q.id == i) }

end RecordCatalog

/-- Modelled from the spec: the client-driven operations of §3 lifecycle, a
sequence of uploads and deletes. -/
inductive Op where
  | upload (filename ftype : String) (c : Content)
  | delete (i : Nat)

/-- Modelled from the spec: one operation applied to the store; a failed
delete (`NotFound`) leaves the store untouched. -/
def Store.step (s : Store) (op : Op) : Store :=
  match op with
  | .upload f t c => (RecordCatalog.create s f t c).1
  | .delete i =>
      match RecordCatalog.del s i with
      | .ok s' => s'
      | .error _ => s

/-- Modelled from the spec: running a sequence of operations from the empty
store. -/
def Store.run (ops : List Op) : Store := ops.foldl Store.step Store.empty

/-- Modelled from the spec: `actual_storage_bytes = Σ blob.size_bytes`. -/
def actualStorageBytes (s : Store) : Nat :=
  (s.blobs.map (·.size_bytes)).sum

/-- Modelled from the spec: `theoretical_storage_bytes = Σ
record.size_bytes` (every upload counted once, duplicates included). -/
def theoreticalStorageBytes (s : Store) : Nat :=
  (s.records.map (·.size_bytes)).sum

/-- Modelled from the spec: one entry of `duplicate_statistics` (§4.4);
the per-group percentage is the `100 / reference_count` originality measure
the spec adopts. -/
structure DuplicateStat where
  original_filename : String
  size : Nat
  duplicate_count : Nat
  total_size_saved : Nat
  originality_percentage : ℚ
deriving DecidableEq

/-- Modelled from the spec: the `summary_metrics` block of the snapshot. -/
structure SummaryMetrics where
  total_files : Nat
  unique_files : Nat
  duplicate_files : Nat
  actual_storage_bytes : Nat
  theoretical_storage_bytes : Nat
  storage_saved_bytes : Nat
deriving DecidableEq

/-- Modelled from the spec: the `efficiency_metrics` block of the
snapshot. -/
structure EfficiencyMetrics where
  deduplication_ratio : ℚ
  space_savings_percentage : ℚ
  originality_percentage : ℚ
  average_duplication_factor : ℚ
deriving DecidableEq

/-- Modelled from the spec: §3 StorageMetricsSnapshot, derived only and
never persisted. -/
structure StorageMetricsSnapshot where
  summary_metrics : SummaryMetrics
  efficiency_metrics : EfficiencyMetrics
  duplicate_statistics : List DuplicateStat
deriving DecidableEq

/-- Modelled from the spec: the `original_filename` of the first record
referencing a blob (empty when no record references it). -/
def firstFilename (s : Store) (h : Content) : String :=
  match s.records.find? (fun r => r.content_hash == h) with
  | some r => r.original_filename
  | none => ""

/-- Modelled from the spec: the duplicate-statistics entry derived from one
blob. -/
def dupStat (s : Store) (b : Blob) : DuplicateStat :=
  ⟨firstFilename s b.content_hash, b.size_bytes, b.reference_count - 1,
   (b.reference_count - 1) * b.size_bytes, (100 : ℚ) / (b.reference_count : ℚ)⟩

/-- Ordering of duplicate-statistics rows: `total_size_saved` descending. -/
def dupStatOrder (a b : DuplicateStat) : Prop :=
  b.total_size_saved ≤ a.total_size_saved

instance : DecidableRel dupStatOrder :=
  fun a b =>
    (inferInstance : Decidable (b.total_size_saved ≤ a.total_size_saved))

instance : IsTotal DuplicateStat dupStatOrder :=
  ⟨fun a b => le_total b.total_size_saved a.total_size_saved⟩

instance : IsTrans DuplicateStat dupStatOrder :=
  ⟨fun _ _ _ hab hbc => le_trans hbc hab⟩

/-- Modelled from the spec: `duplicate_statistics`, one entry per blob with
`reference_count > 1`, sorted by `total_size_saved` descending. -/
def duplicateStatistics (s : Store) : List DuplicateStat :=
  List.insertionSort dupStatOrder
    ((s.blobs.filter (fun b => decide (1 < b.reference_count))).map (dupStat s))

/-- Modelled from the spec: §4.4 MetricsEngine, a pure function of the
current store with the divide-by-zero guards of the spec. -/
def metrics (s : Store) : StorageMetricsSnapshot :=
  let total := s.records.length
  let uniq := s.blobs.length
  let actual := actualStorageBytes s
  let theo := theoreticalStorageBytes s
  let saved := theo - actual
  { summary_metrics := ⟨total, uniq, total - uniq, actual, theo, saved⟩
    efficiency_metrics :=
      ⟨if actual = 0 then 1 else (theo : ℚ) / (actual : ℚ),
       if theo = 0 then 0 else 100 * (saved : ℚ) / (theo : ℚ),
       if total = 0 then 0 else 100 * (uniq : ℚ) / (total : ℚ),
       if uniq = 0 then 0 else (total : ℚ) / (uniq : ℚ)⟩
    duplicate_statistics := duplicateStatistics s }

/-- Modelled from the spec: the enumerated set of ordering keys of §4.3. -/
inductive OrderKey where
  | uploaded_at
  | size
  | original_filename
deriving DecidableEq

/-- Modelled from the spec: a §4.3 query filter; `ordering` pairs the key
with a descending flag, `page` is 1-based. -/
structure QuerySpec where
  search : Option String
  file_type : Option String
  is_duplicate : Option Bool
  ordering : Option (OrderKey × Bool)
  page : Nat
  page_size : Nat

/-- Case-sensitive infix test on character lists, used to model substring
search. -/
def lcontains (pat : List Char) : List Char → Bool
  | [] => pat.isEmpty
  | c :: rest => pat.isPrefixOf (c :: rest) || lcontains pat rest

/-- Modelled from the spec: case-insensitive substring match on
filenames. -/
def containsCI (pat str : String) : Bool :=
  lcontains pat.toLower.toList str.toLower.toList

/-- Modelled from the spec: whether a record matches the query's search,
file-type and duplicate filters. -/
def matchesFilter (f : QuerySpec) (r : FileRecord) : Bool :=
  (match f.search with
   | none => true
   | some q => containsCI q r.original_filename) &&
  (match f.file_type with
   | none => true
   | some t => r.file_type == t) &&
  (match f.is_duplicate with
   | none => true
   | some d => r.is_duplicate == d)

/-- Modelled from the spec: the record ordering selected by a key and a
descending flag. -/
def recordLE (key : OrderKey) (desc : Bool) (a b : FileRecord) : Prop :=
  match key, desc with
  | .uploaded_at, false => a.uploaded_at ≤ b.uploaded_at
  | .uploaded_at, true => b.uploaded_at ≤ a.uploaded_at
  | .size, false => a.size_bytes ≤ b.size_bytes
  | .size, true => b.size_bytes ≤ a.size_bytes
  | .original_filename, false => a.original_filename ≤ b.original_filename
  | .original_filename, true => b.original_filename ≤ a.original_filename

instance (key : OrderKey) (desc : Bool) : DecidableRel (recordLE key desc) :=
  fun a b => by
    cases key <;> cases desc <;> simp only [recordLE] <;> infer_instance

instance (key : OrderKey) (desc : Bool) : IsTotal FileRecord (recordLE key desc) :=
  ⟨fun a b => by cases key <;> cases desc <;> simp only [recordLE] <;>
    exact le_total _ _⟩

instance (key : OrderKey) (desc : Bool) : IsTrans FileRecord (recordLE key desc) :=
  ⟨fun a b c hab hbc => by
    cases key <;> cases desc <;> simp only [recordLE] at * <;>
      exact le_trans (by assumption) (by assumption)⟩

/-- Modelled from the spec: sorting of query results; the default ordering
(no key supplied) is `uploaded_at` descending. -/
def sortRecords (ord : Option (OrderKey × Bool)) (rs : List FileRecord) :
    List FileRecord :=
  match ord with
  | none => List.insertionSort (recordLE .uploaded_at true) rs
  | some (k, d) => List.insertionSort (recordLE k d) rs

/-- Shape of an upload response and of a list entry, embedded from the
`FileData` interface of `frontend/src/services/fileService.ts`. -/
structure FileData where
  id : Nat
  original_filename : String
  file_type : String
  size : Nat
  uploaded_at : Nat
  is_duplicate : Bool
  file_hash : Content
  download_url : String
deriving DecidableEq

/-- Download URL of a record, as exposed by the API layer. -/
def downloadUrl (i : Nat) : String :=
  "/files/" ++ toString i ++ "/download/"

/-- Modelled from the spec: the §6 external view of a record, the shape
shared by upload responses and list entries. -/
def recordView (r : FileRecord) : FileData :=
  ⟨r.id, r.original_filename, r.file_type, r.size_bytes, r.uploaded_at,
   r.is_duplicate, r.content_hash, downloadUrl r.id⟩

/-- Modelled from the spec: the §6 List response
`{count, total_pages, current_page, results[]}`. -/
structure QueryResult where
  count : Nat
  total_pages : Nat
  current_page : Nat
  results : List FileData
deriving DecidableEq

/-- Modelled from the spec: §4.3 `query(filter)`; records are filtered,
sorted, and paginated with 1-based `page`;
`total_pages = ceil(total_count / page_size)`. -/
def RecordCatalog.query (s : Store) (f : QuerySpec) : QueryResult :=
  let matched := s.records.filter (matchesFilter f)
  let n := matched.length
  let sorted := sortRecords f.ordering matched
  ⟨n, (n + f.page_size - 1) / f.page_size, f.page,
   ((sorted.drop ((f.page - 1) * f.page_size)).take f.page_size).map recordView⟩

/-- Modelled from the spec: the §6 Upload response, the external view of
the record created by an upload. -/
def uploadResponse (s : Store) (filename ftype : String) (c : Content) :
    FileData :=
  recordView (RecordCatalog.create s filename ftype c).2.1

/-- Modelled from the spec: K uploads of the same content executed in the
serial order enforced by the per-fingerprint mutual exclusion of §5;
returns the final store and, per upload, the record and `created` flag. -/
def uploadReplicate (fn ft : String) (c : Content) :
    Nat → Store → Store × List (FileRecord × Bool)
  | 0, s => (s, [])
  | k + 1, s =>
      let u := RecordCatalog.create s fn ft c
      let rest := uploadReplicate fn ft c k u.1
      (rest.1, (u.2.1, u.2.2) :: rest.2)

/-- Page count helper `fileService.calculatePageCount` from
`frontend/src/services/fileService.ts`: `Math.ceil(totalItems / pageSize)`,
written as exact natural ceiling division (the two agree for
`pageSize ≥ 1`). -/
def calculatePageCount (totalItems pageSize : Nat) : Nat :=
  (totalItems + pageSize - 1) / pageSize

/-- The `start` local of `fileService.getPageRange` before the window
adjustment: `Math.max(currentPage - Math.floor(maxPages / 2), 1)`. -/
def pageStart0 (currentPage maxPages : Int) : Int :=
  max (currentPage - maxPages / 2) 1

/-- The `end` local of `fileService.getPageRange`:
`Math.min(start + maxPages - 1, totalPages)`. -/
def pageEnd (currentPage totalPages maxPages : Int) : Int :=
  min (pageStart0 currentPage maxPages + maxPages - 1) totalPages

/-- The `start` local of `fileService.getPageRange` after the
`end - start + 1 < maxPages` adjustment. -/
def pageStart (currentPage totalPages maxPages : Int) : Int :=
  if pageEnd currentPage totalPages maxPages -
      pageStart0 currentPage maxPages + 1 < maxPages then
    max (pageEnd currentPage totalPages maxPages - maxPages + 1) 1
  else pageStart0 currentPage maxPages

/-- Pagination window `fileService.getPageRange` from
`frontend/src/services/fileService.ts`; `Math.floor(maxPages / 2)` is
integer division for a positive `maxPages`, and the `for` loop pushing
`start..end` is the mapped range (empty when `start > end`). -/
def getPageRange (currentPage totalPages maxPages : Int) : List Int :=
  (List.range (pageEnd currentPage totalPages maxPages -
      pageStart currentPage totalPages maxPages + 1).toNat).map
    (fun i : Nat => pageStart currentPage totalPages maxPages + (i : Int))

/-- Unit array of `formatFileSize` (`FileList.tsx`) and `formatBytes` (the
storage-metrics dashboards). -/
def sizesArray : List String := ["Bytes", "KB", "MB", "GB"]

/-- Unit index of `formatFileSize`: `Math.floor(Math.log(bytes) /
Math.log(1024))`, modelled as the exact base-1024 logarithm. -/
def sizeIndex (bytes : Nat) : Nat := Nat.log 1024 bytes

/-- The unit part of `formatFileSize` from
`frontend/src/components/FileList.tsx`: `'0 Bytes'` for zero, otherwise the
unit `sizes[i]` selected by the logarithmic index (`none` models the
out-of-bounds `undefined`); the float-formatted numeric prefix is not
modelled. -/
def formatFileSize (bytes : Nat) : Option String :=
  if bytes = 0 then some "0 Bytes" else sizesArray.get? (sizeIndex bytes)

/-- Filter state of the `FileList` component
(`frontend/src/components/FileList.tsx`). -/
structure FiltersState where
  search : String
  fileType : String
  isDuplicate : String
  sortBy : String
  sortOrder : String
deriving DecidableEq

/-- Initial filter state of `FileList` (lines 37-43 of `FileList.tsx`). -/
def initialFilters : FiltersState := ⟨"", "", "", "uploaded_at", "desc"⟩

/-- Ordering request string built by `FileList.loadFiles`:
`(sortOrder === 'desc' ? '-' : '') + sortBy`. -/
def orderingParam (f : FiltersState) : String :=
  (if f.sortOrder == "desc" then "-" else "") ++ f.sortBy

/-- A query with no search, type, duplicate or ordering constraint, for a
given page and a page size of 10. -/
def pageQuery (p : Nat) : QuerySpec := ⟨none, none, none, none, p, 10⟩

/-- A store holding 25 records of distinct content, used to instantiate
pagination statements. -/
def store25 : Store :=
  ⟨(List.range 25).map (fun i => ⟨[i], 1, 1⟩),
   (List.range 25).map (fun i => ⟨i, "f", "t", 1, i, [i], false⟩), 25, 25⟩

/-- Natural ceiling division agrees with the rational ceiling of the
quotient whenever the divisor is positive. -/
theorem natCeilDiv_cast_eq_ceil (n ps : Nat) (h : 1 ≤ ps) :
    (((n + ps - 1) / ps : Nat) : ℤ) = ⌈(n : ℚ) / (ps : ℚ)⌉ := by
  have hps : 0 < ps := h
  have hq : (0 : ℚ) < (ps : ℚ) := by exact_mod_cast hps
  have hceil : n ⌈/⌉ ps = (n + ps - 1) / ps := rfl
  have hub : n ≤ ps * ((n + ps - 1) / ps) := by
    have := @le_smul_ceilDiv ℕ ℕ _ _ _ _ ps n hps
    rw [hceil] at this
    simpa [smul_eq_mul] using this
  rw [eq_comm, Int.ceil_eq_iff]
  refine ⟨?_, ?_⟩
  · rcases Nat.eq_zero_or_pos ((n + ps - 1) / ps) with hz | hpos
    · rw [hz]
      have hnn : (0 : ℚ) ≤ (n : ℚ) / (ps : ℚ) :=
        div_nonneg (by positivity) (le_of_lt hq)
      push_cast
      linarith
    · obtain ⟨j, hj⟩ : ∃ j, (n + ps - 1) / ps = j + 1 :=
        ⟨(n + ps - 1) / ps - 1, by omega⟩
      have hlt : ps * j < n := by
        by_contra hc
        push_neg at hc
        have : n ⌈/⌉ ps ≤ j := (ceilDiv_le_iff_le_mul hps).2 hc
        rw [hceil, hj] at this
        omega
      rw [hj, lt_div_iff₀ hq]
      have hlt' : j * ps < n := by
        calc j * ps = ps * j := Nat.mul_comm _ _
          _ < n := hlt
      have hcast : (j : ℚ) * (ps : ℚ) < (n : ℚ) := by exact_mod_cast hlt'
      push_cast
      linarith
  · rw [div_le_iff₀ hq]
    have hub' : n ≤ ((n + ps - 1) / ps) * ps := by
      calc n ≤ ps * ((n + ps - 1) / ps) := hub
        _ = ((n + ps - 1) / ps) * ps := Nat.mul_comm _ _
    exact_mod_cast hub'

/-- C3: on the empty store the metrics snapshot is computed by a total
function (no exception can escape) and every guarded ratio or percentage
field takes its specified guard value: `deduplication_ratio = 1`,
`space_savings_percentage = 0`, `originality_percentage = 0` and
`average_duplication_factor = 0`. -/
theorem C3_empty_store_guard_values :
    (metrics Store.empty).efficiency_metrics.deduplication_ratio = 1 ∧
    (metrics Store.empty).efficiency_metrics.space_savings_percentage = 0 ∧
    (metrics Store.empty).efficiency_metrics.originality_percentage = 0 ∧
    (metrics Store.empty).efficiency_metrics.average_duplication_factor = 0 :=
  ⟨rfl, rfl, rfl, rfl⟩

/-- C4: for every query with a positive page size, the List output's
`total_pages` is the ceiling of `total_count / page_size`, and it agrees
with the client helper `calculatePageCount`; in particular 25 records with
a page size of 10 give `total_pages = 3`. -/
theorem C4_total_pages_is_ceil (s : Store) (f : QuerySpec)
    (h : 1 ≤ f.page_size) :
    ((RecordCatalog.query s f).total_pages : ℤ) =
      ⌈((RecordCatalog.query s f).count : ℚ) / (f.page_size : ℚ)⌉ ∧
    (RecordCatalog.query s f).total_pages =
      calculatePageCount (RecordCatalog.query s f).count f.page_size ∧
    (RecordCatalog.query store25 (pageQuery 1)).total_pages = 3 :=
  ⟨natCeilDiv_cast_eq_ceil (RecordCatalog.query s f).count f.page_size h,
   rfl, rfl⟩

/-- Witness for C4 at the spec's concrete pagination scenario. -/
theorem C4_total_pages_is_ceil_witness :
    1 ≤ (pageQuery 1).page_size ∧
    (((RecordCatalog.query store25 (pageQuery 1)).total_pages : ℤ) =
      ⌈((RecordCatalog.query store25 (pageQuery 1)).count : ℚ) /
        ((pageQuery 1).page_size : ℚ)⌉ ∧
     (RecordCatalog.query store25 (pageQuery 1)).total_pages =
       calculatePageCount (RecordCatalog.query store25 (pageQuery 1)).count
         (pageQuery 1).page_size ∧
     (RecordCatalog.query store25 (pageQuery 1)).total_pages = 3) :=
  ⟨by decide, C4_total_pages_is_ceil store25 (pageQuery 1) (by decide)⟩

/-- C5: a query whose 1-based page number exceeds `total_pages` succeeds
with an empty page of results while still reporting the full count of
matching records. -/
theorem C5_page_beyond_total_pages (s : Store) (f : QuerySpec)
    (h1 : 1 ≤ f.page_size)
    (h2 : (RecordCatalog.query s f).total_pages < f.page) :
    (RecordCatalog.query s f).results = [] ∧
    (RecordCatalog.query s f).count =
      (s.records.filter (matchesFilter f)).length := by
  refine ⟨?_, rfl⟩
  show (((sortRecords f.ordering (s.records.filter (matchesFilter f))).drop
      ((f.page - 1) * f.page_size)).take f.page_size).map recordView = []
  set matched := s.records.filter (matchesFilter f) with hmatched
  have hlen : (sortRecords f.ordering matched).length = matched.length := by
    rcases f.ordering with _ | ⟨k, d⟩ <;>
      simp [sortRecords, List.length_insertionSort]
  have hub : matched.length ≤
      f.page_size * ((matched.length + f.page_size - 1) / f.page_size) := by
    have := @le_smul_ceilDiv ℕ ℕ _ _ _ _ f.page_size matched.length h1
    simpa [smul_eq_mul] using this
  have h2' : (matched.length + f.page_size - 1) / f.page_size < f.page := h2
  have hdrop : (sortRecords f.ordering matched).length ≤
      (f.page - 1) * f.page_size := by
    rw [hlen]
    calc matched.length
        ≤ f.page_size * ((matched.length + f.page_size - 1) / f.page_size) :=
          hub
      _ ≤ f.page_size * (f.page - 1) := Nat.mul_le_mul_left _ (by omega)
      _ = (f.page - 1) * f.page_size := Nat.mul_comm _ _
  rw [List.drop_eq_nil_of_le hdrop]
  simp

/-- Witness for C5: page 4 of the 25-record store is empty with the full
count reported. -/
theorem C5_page_beyond_total_pages_witness :
    1 ≤ (pageQuery 4).page_size ∧
    (RecordCatalog.query store25 (pageQuery 4)).total_pages < (pageQuery 4).page ∧
    ((RecordCatalog.query store25 (pageQuery 4)).results = [] ∧
     (RecordCatalog.query store25 (pageQuery 4)).count =
       (store25.records.filter (matchesFilter (pageQuery 4))).length) :=
  ⟨by decide, by decide,
   C5_page_beyond_total_pages store25 (pageQuery 4) (by decide) (by decide)⟩

/-- C10: for `bytes < 1024 ^ 4` the unit index of `formatFileSize` stays
inside the `sizes` array and the selected unit is one of `Bytes`, `KB`,
`MB`, `GB`; the function returns `0 Bytes` exactly when `bytes = 0`; from
`1024 ^ 4` on the index leaves the array and the unit is undefined. -/
theorem C10_formatFileSize_units (bytes : Nat) :
    (formatFileSize bytes = some "0 Bytes" ↔ bytes = 0) ∧
    (bytes ≠ 0 → bytes < 1024 ^ 4 →
      sizeIndex bytes < sizesArray.length ∧
      ∃ u ∈ sizesArray, formatFileSize bytes = some u) ∧
    (1024 ^ 4 ≤ bytes → formatFileSize bytes = none) := by
  refine ⟨⟨?_, ?_⟩, ?_, ?_⟩
  · intro h
    by_contra hb
    rw [formatFileSize, if_neg hb] at h
    exact absurd (List.get?_mem h) (by decide)
  · intro h
    rw [formatFileSize, if_pos h]
  · intro h0 hlt
    have hidx : sizeIndex bytes < 4 := Nat.log_lt_of_lt_pow h0 hlt
    have hlen : sizeIndex bytes < sizesArray.length := by
      simpa [sizesArray] using hidx
    refine ⟨hlen, sizesArray.get ⟨sizeIndex bytes, hlen⟩,
      List.get_mem _ _ _, ?_⟩
    rw [formatFileSize, if_neg h0, List.get?_eq_get hlen]
  · intro h
    have h0 : bytes ≠ 0 := by
      intro he
      rw [he] at h
      exact absurd h (by decide)
    have hge : 4 ≤ sizeIndex bytes :=
      (Nat.pow_le_iff_le_log (by norm_num) h0).1 h
    rw [formatFileSize, if_neg h0, List.get?_eq_none]
    simpa [sizesArray] using hge

/-- C2: the duplicate statistics are a permutation of one entry per blob
with `reference_count > 1`, are sorted by `total_size_saved` descending,
and each blob's entry carries the first referencing record's filename, the
blob size, `duplicate_count = reference_count - 1`,
`total_size_saved = duplicate_count * size_bytes` and a per-group
originality percentage of `100 / reference_count`. -/
theorem C2_duplicate_statistics_shape (s : Store) :
    (duplicateStatistics s).Perm
      ((s.blobs.filter (fun b => decide (1 < b.reference_count))).map
        (dupStat s)) ∧
    (duplicateStatistics s).Sorted dupStatOrder ∧
    ∀ b ∈ s.blobs, 1 < b.reference_count →
      (dupStat s b).original_filename = firstFilename s b.content_hash ∧
      (dupStat s b).size = b.size_bytes ∧
      (dupStat s b).duplicate_count = b.reference_count - 1 ∧
      (dupStat s b).total_size_saved =
        (b.reference_count - 1) * b.size_bytes ∧
      (dupStat s b).originality_percentage =
        100 / (b.reference_count : ℚ) := by
  refine ⟨List.perm_insertionSort _ _, List.sorted_insertionSort _ _, ?_⟩
  intro b _ _
  exact ⟨rfl, rfl, rfl, rfl, rfl⟩

/-- C6: the List client's initial state requests the ordering string
`-uploaded_at`, and a query with no ordering returns its results sorted by
`uploaded_at` descending. -/
theorem C6_default_ordering (s : Store) (f : QuerySpec)
    (h : f.ordering = none) :
    orderingParam initialFilters = "-uploaded_at" ∧
    (RecordCatalog.query s f).results.Pairwise
      (fun a b => b.uploaded_at ≤ a.uploaded_at) := by
  refine ⟨by decide, ?_⟩
  show ((((sortRecords f.ordering (s.records.filter (matchesFilter f))).drop
      ((f.page - 1) * f.page_size)).take f.page_size).map recordView).Pairwise
    (fun a b => b.uploaded_at ≤ a.uploaded_at)
  rw [h]
  have hsorted :
      (List.insertionSort (recordLE .uploaded_at true)
        (s.records.filter (matchesFilter f))).Pairwise
        (recordLE .uploaded_at true) :=
    List.sorted_insertionSort _ _
  have hsub : List.Sublist
      (((List.insertionSort (recordLE .uploaded_at true)
          (s.records.filter (matchesFilter f))).drop
        ((f.page - 1) * f.page_size)).take f.page_size)
      (List.insertionSort (recordLE .uploaded_at true)
        (s.records.filter (matchesFilter f))) :=
    (List.take_sublist _ _).trans (List.drop_sublist _ _)
  have hpair := hsorted.sublist hsub
  rw [List.pairwise_map]
  exact hpair

/-- Witness for C6: the 25-record store queried without an ordering. -/
theorem C6_default_ordering_witness :
    (pageQuery 1).ordering = none ∧
    (orderingParam initialFilters = "-uploaded_at" ∧
     (RecordCatalog.query store25 (pageQuery 1)).results.Pairwise
       (fun a b => b.uploaded_at ≤ a.uploaded_at)) :=
  ⟨rfl, C6_default_ordering store25 (pageQuery 1) rfl⟩

/-- C7: an upload response is the external record view (whose `FileData`
shape is exactly `{id, original_filename, file_type, size, uploaded_at,
is_duplicate, file_hash, download_url}`), and every entry of a List result
is a value of that same `recordView` shape. -/
theorem C7_response_shape (s : Store) (f : QuerySpec) (fn ft : String)
    (c : Content) :
    uploadResponse s fn ft c =
      recordView (RecordCatalog.create s fn ft c).2.1 ∧
    ∀ x ∈ (RecordCatalog.query s f).results,
      ∃ r : FileRecord, x = recordView r := by
  refine ⟨rfl, ?_⟩
  intro x hx
  have hx' : x ∈ (((sortRecords f.ordering
      (s.records.filter (matchesFilter f))).drop
        ((f.page - 1) * f.page_size)).take f.page_size).map recordView := hx
  obtain ⟨r, -, rfl⟩ := List.mem_map.1 hx'
  exact ⟨r, rfl⟩

/-- Arithmetic facts about the pagination window: its start is at least 1,
its end at most `totalPages`, its width at most `maxPages`, and it contains
the current page whenever that page exists. -/
theorem pageRange_arith (cp tp mp : Int) (hcp : 1 ≤ cp) (htp : 1 ≤ tp)
    (hmp : 1 ≤ mp) :
    1 ≤ pageStart cp tp mp ∧ pageEnd cp tp mp ≤ tp ∧
    pageEnd cp tp mp - pageStart cp tp mp + 1 ≤ mp ∧
    (cp ≤ tp → pageStart cp tp mp ≤ cp ∧ cp ≤ pageEnd cp tp mp) := by
  simp only [pageStart, pageEnd, pageStart0]
  split_ifs with h <;> omega

/-- Membership in an integer range built by mapping over `List.range`. -/
theorem mem_intRange (s e x : Int) :
    x ∈ (List.range (e - s + 1).toNat).map (fun i : Nat => s + (i : Int)) ↔
      s ≤ x ∧ x ≤ e := by
  simp only [List.mem_map, List.mem_range]
  constructor
  · rintro ⟨i, hi, rfl⟩
    omega
  · rintro ⟨h1, h2⟩
    exact ⟨(x - s).toNat, by omega, by omega⟩

/-- An integer range built by mapping over `List.range` increases in steps
of one. -/
theorem chain_intRange (s : Int) (n : Nat) :
    ((List.range n).map (fun i : Nat => s + (i : Int))).Chain'
      (fun a b => b = a + 1) := by
  rw [List.chain'_map]
  cases n with
  | zero => simp
  | succ m =>
      refine (List.chain'_range_succ _ m).2 ?_
      intro i _
      push_cast
      ring

/-- C9: for positive inputs, `getPageRange` returns a contiguous strictly
ascending list of at most `maxPages` pages, all within `[1, totalPages]`,
containing the current page whenever it is within range. -/
theorem C9_getPageRange_window (cp tp mp : Int) (hcp : 1 ≤ cp)
    (htp : 1 ≤ tp) (hmp : 1 ≤ mp) :
    (getPageRange cp tp mp).Chain' (fun a b => b = a + 1) ∧
    (getPageRange cp tp mp).length ≤ mp.toNat ∧
    (∀ x ∈ getPageRange cp tp mp, 1 ≤ x ∧ x ≤ tp) ∧
    (cp ≤ tp → cp ∈ getPageRange cp tp mp) := by
  obtain ⟨h1, h2, h3, h4⟩ := pageRange_arith cp tp mp hcp htp hmp
  refine ⟨chain_intRange _ _, ?_, ?_, ?_⟩
  · simp only [getPageRange, List.length_map, List.length_range]
    omega
  · intro x hx
    simp only [getPageRange] at hx
    rw [mem_intRange] at hx
    omega
  · intro hle
    simp only [getPageRange]
    rw [mem_intRange]
    exact h4 hle

/-- Number of records referencing a fingerprint. -/
def RefCount (records : List FileRecord) (h : Content) : Nat :=
  (records.filter (fun r => r.content_hash == h)).length

/-- Well-formedness of the store: every blob's size matches its content,
its reference count is positive and equals the number of referencing
records; every record's size matches its content and its blob exists; and
blob fingerprints are pairwise distinct. -/
def WF (s : Store) : Prop :=
  (∀ b ∈ s.blobs,
    b.size_bytes = b.content_hash.length ∧
    0 < b.reference_count ∧
    b.reference_count = RefCount s.records b.content_hash) ∧
  (∀ r ∈ s.records,
    r.size_bytes = r.content_hash.length ∧
    ∃ b ∈ s.blobs, b.content_hash = r.content_hash) ∧
  s.blobs.Pairwise (fun a b => a.content_hash ≠ b.content_hash)

theorem RefCount_append (l1 l2 : List FileRecord) (h : Content) :
    RefCount (l1 ++ l2) h = RefCount l1 h + RefCount l2 h := by
  simp [RefCount, List.filter_append]

theorem RefCount_single (r : FileRecord) (h : Content) :
    RefCount [r] h = if r.content_hash = h then 1 else 0 := by
  by_cases hr : r.content_hash = h
  · simp [RefCount, List.filter_cons, hr]
  · simp [RefCount, List.filter_cons, hr]

theorem RefCount_cons (r : FileRecord) (l : List FileRecord) (h : Content) :
    RefCount (r :: l) h = (if r.content_hash = h then 1 else 0) +
      RefCount l h := by
  by_cases hr : r.content_hash = h
  · simp [RefCount, List.filter_cons, hr]
    omega
  · simp [RefCount, List.filter_cons, hr]

theorem RefCount_pos_of_mem {l : List FileRecord} {q : FileRecord}
    (hq : q ∈ l) {h : Content} (hh : q.content_hash = h) :
    1 ≤ RefCount l h := by
  have : q ∈ l.filter (fun r => r.content_hash == h) :=
    List.mem_filter.2 ⟨hq, by simp [hh]⟩
  have hne := List.ne_nil_of_mem this
  have := List.length_pos.2 hne
  simpa [RefCount] using this

theorem WF_empty : WF Store.empty := by
  refine ⟨?_, ?_, ?_⟩ <;> simp [Store.empty]

/-- An upload preserves well-formedness of the store. -/
theorem WF_create {s : Store} (hs : WF s) (fn ft : String) (c : Content) :
    WF (RecordCatalog.create s fn ft c).1 := by
  obtain ⟨hb, hr, hp⟩ := hs
  cases hfind : s.blobs.find? (fun b => b.content_hash == c) with
  | none =>
      have hnone : ∀ b ∈ s.blobs, b.content_hash ≠ c := by
        intro b hbm
        have := List.find?_eq_none.1 hfind b hbm
        simpa using this
      have hnorec : ∀ r ∈ s.records, r.content_hash ≠ c := by
        intro r hrm hrc
        obtain ⟨-, b, hbm, hbh⟩ := hr r hrm
        exact hnone b hbm (hbh.trans hrc)
      have hzero : RefCount s.records c = 0 := by
        simp only [RefCount, List.length_eq_zero]
        rw [List.filter_eq_nil_iff]
        intro r hrm
        simp [hnorec r hrm]
      have hcreate : (RecordCatalog.create s fn ft c).1 =
          ⟨s.blobs ++ [⟨c, c.length, 1⟩],
           s.records ++ [⟨s.nextId, fn, ft, c.length, s.clock, c, false⟩],
           s.nextId + 1, s.clock + 1⟩ := by
        simp [RecordCatalog.create, BlobStore.put, hfind]
      rw [hcreate]
      refine ⟨?_, ?_, ?_⟩
      · intro b hbm
        rcases List.mem_append.1 hbm with hbm' | hbm'
        · obtain ⟨h1, h2, h3⟩ := hb b hbm'
          refine ⟨h1, h2, ?_⟩
          show b.reference_count = RefCount (s.records ++ [_]) b.content_hash
          rw [RefCount_append, RefCount_single,
            if_neg (fun hh => hnone b hbm' hh.symm)]
          omega
        · rcases List.mem_singleton.1 hbm' with rfl
          refine ⟨rfl, Nat.one_pos, ?_⟩
          show 1 = RefCount (s.records ++ [_]) c
          rw [RefCount_append, RefCount_single, if_pos rfl, hzero]
      · intro r hrm
        rcases List.mem_append.1 hrm with hrm' | hrm'
        · obtain ⟨h1, b, hbm, hbh⟩ := hr r hrm'
          exact ⟨h1, b, List.mem_append_left _ hbm, hbh⟩
        · rcases List.mem_singleton.1 hrm' with rfl
          exact ⟨rfl, ⟨c, c.length, 1⟩,
            List.mem_append_right _ (List.mem_singleton_self _), rfl⟩
      · rw [List.pairwise_append]
        refine ⟨hp, List.pairwise_singleton _ _, ?_⟩
        intro a ham b hbm
        rcases List.mem_singleton.1 hbm with rfl
        exact hnone a ham
  | some b0 =>
      have hb0c : b0.content_hash = c := by
        have := List.find?_some hfind
        simpa using this
      set F : Blob → Blob := fun x =>
        if x.content_hash == c then
          { x with reference_count := x.reference_count + 1 }
        else x with hF
      have hFhash : ∀ x, (F x).content_hash = x.content_hash := by
        intro x
        by_cases hx : x.content_hash = c <;> simp [hF, hx]
      have hFsize : ∀ x, (F x).size_bytes = x.size_bytes := by
        intro x
        by_cases hx : x.content_hash = c <;> simp [hF, hx]
      have hcreate : (RecordCatalog.create s fn ft c).1 =
          ⟨s.blobs.map F,
           s.records ++ [⟨s.nextId, fn, ft, c.length, s.clock, c, true⟩],
           s.nextId + 1, s.clock + 1⟩ := by
        simp [RecordCatalog.create, BlobStore.put, hfind, hF]
      rw [hcreate]
      refine ⟨?_, ?_, ?_⟩
      · intro b hbm
        obtain ⟨x, hxm, rfl⟩ := List.mem_map.1 hbm
        obtain ⟨h1, h2, h3⟩ := hb x hxm
        by_cases hx : x.content_hash = c
        · have hFx : F x = { x with
              reference_count := x.reference_count + 1 } := by
            simp [hF, hx]
          rw [hFx]
          refine ⟨h1, by show 0 < x.reference_count + 1; omega, ?_⟩
          show x.reference_count + 1 =
            RefCount (s.records ++ [_]) x.content_hash
          rw [RefCount_append, RefCount_single, if_pos hx.symm]
          omega
        · have hFx : F x = x := by simp [hF, hx]
          rw [hFx]
          refine ⟨h1, h2, ?_⟩
          show x.reference_count =
            RefCount (s.records ++ [_]) x.content_hash
          rw [RefCount_append, RefCount_single,
            if_neg (fun hh => hx hh.symm)]
          omega
      · intro r hrm
        rcases List.mem_append.1 hrm with hrm' | hrm'
        · obtain ⟨h1, b, hbm, hbh⟩ := hr r hrm'
          exact ⟨h1, F b, List.mem_map_of_mem F hbm,
            by rw [hFhash]; exact hbh⟩
        · rcases List.mem_singleton.1 hrm' with rfl
          refine ⟨rfl, F b0,
            List.mem_map_of_mem F (List.mem_of_find?_eq_some hfind), ?_⟩
          rw [hFhash]
          exact hb0c
      · rw [List.pairwise_map]
        exact hp.imp (fun {a b} hab => by rw [hFhash, hFhash]; exact hab)

/-- A successful delete preserves well-formedness of the store. -/
theorem WF_del {s : Store} (hs : WF s) (i : Nat) {s' : Store}
    (hdel : RecordCatalog.del s i = .ok s') : WF s' := by
  obtain ⟨hb, hr, hp⟩ := hs
  unfold RecordCatalog.del at hdel
  cases hfind : s.records.find? (fun r => r.id == i) with
  | none =>
      rw [hfind] at hdel
      cases hdel
  | some r =>
      rw [hfind] at hdel
      obtain ⟨hpidr, l1, l2, hsplit, hl1⟩ := List.find?_eq_some.1 hfind
      have hl1' : ∀ a ∈ l1, ¬((fun q : FileRecord => q.id == i) a = true) := by
        intro a ham
        have := hl1 a ham
        simpa using this
      have herase : s.records.eraseP (fun q => q.id == i) = l1 ++ l2 := by
        rw [hsplit, List.eraseP_append_right _ hl1']
        simp [List.eraseP_cons, hpidr]
      have hs' : s' =
          ⟨(BlobStore.release s r.content_hash).blobs, l1 ++ l2,
           s.nextId, s.clock⟩ := by
        have := hdel
        rw [herase] at this
        cases this
        rfl
      have hRC : ∀ h : Content, RefCount (l1 ++ l2) h +
          (if r.content_hash = h then 1 else 0) = RefCount s.records h := by
        intro h
        rw [hsplit, RefCount_append, RefCount_append, RefCount_cons]
        omega
      set G : Blob → Blob := fun x =>
        if x.content_hash == r.content_hash then
          { x with reference_count := x.reference_count - 1 }
        else x with hG
      have hGhash : ∀ x, (G x).content_hash = x.content_hash := by
        intro x
        by_cases hx : x.content_hash = r.content_hash <;> simp [hG, hx]
      have hGsize : ∀ x, (G x).size_bytes = x.size_bytes := by
        intro x
        by_cases hx : x.content_hash = r.content_hash <;> simp [hG, hx]
      set keep : Blob → Bool := fun b =>
        !(b.content_hash == r.content_hash) || b.reference_count != 0
        with hkeep
      have hrel : (BlobStore.release s r.content_hash).blobs =
          (s.blobs.map G).filter keep := rfl
      rw [hs', hrel]
      have hrmem : r ∈ s.records := by
        rw [hsplit]
        exact List.mem_append_right _ (List.mem_cons_self _ _)
      refine ⟨?_, ?_, ?_⟩
      · intro b hbm
        obtain ⟨hbm', hkb⟩ := List.mem_filter.1 hbm
        obtain ⟨x, hxm, rfl⟩ := List.mem_map.1 hbm'
        obtain ⟨h1, h2, h3⟩ := hb x hxm
        by_cases hx : x.content_hash = r.content_hash
        · have hGx : G x = { x with
              reference_count := x.reference_count - 1 } := by
            simp [hG, hx]
          have hkb' : x.reference_count - 1 ≠ 0 := by
            rw [hGx] at hkb
            simpa [hkeep, hx] using hkb
          rw [hGx]
          refine ⟨h1, by show 0 < x.reference_count - 1; omega, ?_⟩
          show x.reference_count - 1 = RefCount (l1 ++ l2) x.content_hash
          have := hRC x.content_hash
          rw [if_pos hx.symm] at this
          omega
        · have hGx : G x = x := by simp [hG, hx]
          rw [hGx]
          refine ⟨h1, h2, ?_⟩
          show x.reference_count = RefCount (l1 ++ l2) x.content_hash
          have := hRC x.content_hash
          rw [if_neg (fun hh => hx hh.symm)] at this
          omega
      · intro q hqm
        have hqmem : q ∈ s.records := by
          rw [hsplit]
          rcases List.mem_append.1 hqm with hq | hq
          · exact List.mem_append_left _ hq
          · exact List.mem_append_right _ (List.mem_cons_of_mem _ hq)
        obtain ⟨h1, b, hbm, hbh⟩ := hr q hqmem
        refine ⟨h1, G b, ?_, by rw [hGhash]; exact hbh⟩
        by_cases hq : q.content_hash = r.content_hash
        · have hbh' : b.content_hash = r.content_hash := hbh.trans hq
          have hcount2 : 2 ≤ RefCount s.records b.content_hash := by
            have hone : 1 ≤ RefCount (l1 ++ l2) b.content_hash :=
              RefCount_pos_of_mem hqm hbh.symm
            have := hRC b.content_hash
            rw [if_pos hbh'.symm] at this
            omega
          have hGb : G b = { b with
              reference_count := b.reference_count - 1 } := by
            simp [hG, hbh']
          refine List.mem_filter.2 ⟨List.mem_map_of_mem G hbm, ?_⟩
          rw [hGb]
          have h3 := (hb b hbm).2.2
          simp only [hkeep, hbh']
          simp
          omega
        · have hbh' : b.content_hash ≠ r.content_hash := fun hh =>
            hq ((hbh.symm.trans hh))
          have hGb : G b = b := by simp [hG, hbh']
          refine List.mem_filter.2 ⟨List.mem_map_of_mem G hbm, ?_⟩
          rw [hGb]
          simp [hkeep, hbh']
      · refine List.Pairwise.sublist (List.filter_sublist _) ?_
        rw [List.pairwise_map]
        exact hp.imp (fun {a b} hab => by rw [hGhash, hGhash]; exact hab)

/-- Every operation preserves well-formedness. -/
theorem WF_step {s : Store} (hs : WF s) (op : Op) : WF (s.step op) := by
  cases op with
  | upload fn ft c => exact WF_create hs fn ft c
  | delete i =>
      cases hdel : RecordCatalog.del s i with
      | ok s' =>
          have : s.step (Op.delete i) = s' := by
            simp [Store.step, hdel]
          rw [this]
          exact WF_del hs i hdel
      | error e =>
          have : s.step (Op.delete i) = s := by
            simp [Store.step, hdel]
          rw [this]
          exact hs

/-- Any sequence of operations from the empty store yields a well-formed
store. -/
theorem WF_run (ops : List Op) : WF (Store.run ops) := by
  suffices hgen : ∀ s : Store, WF s → WF (ops.foldl Store.step s) from
    hgen Store.empty WF_empty
  induction ops with
  | nil => exact fun s hs => hs
  | cons op rest ih =>
      intro s hs
      exact ih (s.step op) (WF_step hs op)

/-- Records regrouped by blob: the total of record sizes equals the total
over blobs of `reference_count * size_bytes`. -/
theorem sum_regroup : ∀ (blobs : List Blob) (records : List FileRecord),
    (∀ b ∈ blobs, b.size_bytes = b.content_hash.length ∧
      b.reference_count = RefCount records b.content_hash) →
    (∀ r ∈ records, r.size_bytes = r.content_hash.length ∧
      ∃ b ∈ blobs, b.content_hash = r.content_hash) →
    blobs.Pairwise (fun a b => a.content_hash ≠ b.content_hash) →
    (records.map (·.size_bytes)).sum =
      (blobs.map (fun b => b.reference_count * b.size_bytes)).sum
  | [], records, hb, hr, hp => by
      have hrec : records = [] := by
        cases records with
        | nil => rfl
        | cons r rs =>
            obtain ⟨-, b, hbm, -⟩ := hr r (List.mem_cons_self r rs)
            exact absurd hbm (List.not_mem_nil b)
      rw [hrec]
      simp
  | b :: bs, records, hb, hr, hp => by
      set p : FileRecord → Bool :=
        fun r => r.content_hash == b.content_hash with hpdef
      have hperm :
          (records.filter p ++ records.filter (fun r => !p r)).Perm records :=
        List.filter_append_perm p records
      have hsum : (records.map (·.size_bytes)).sum =
          ((records.filter p).map (·.size_bytes)).sum +
          ((records.filter (fun r => !p r)).map (·.size_bytes)).sum := by
        rw [← List.sum_append, ← List.map_append]
        exact ((hperm.map _).sum_eq).symm
      have hconst : ∀ x ∈ (records.filter p).map (·.size_bytes),
          x = b.size_bytes := by
        intro x hx
        obtain ⟨r, hrm, rfl⟩ := List.mem_map.1 hx
        obtain ⟨hrmem, hpr⟩ := List.mem_filter.1 hrm
        have hrh : r.content_hash = b.content_hash := by
          simpa [hpdef] using hpr
        obtain ⟨hsz, -⟩ := hr r hrmem
        rw [hsz, hrh, ← (hb b (List.mem_cons_self b bs)).1]
      have hlen1 : ((records.filter p).map (·.size_bytes)).length =
          b.reference_count := by
        rw [List.length_map]
        exact ((hb b (List.mem_cons_self b bs)).2).symm
      have hfirst : ((records.filter p).map (·.size_bytes)).sum =
          b.reference_count * b.size_bytes := by
        rw [List.sum_eq_card_nsmul _ _ hconst, hlen1, smul_eq_mul]
      have hpc := List.pairwise_cons.1 hp
      have hbs : ∀ b' ∈ bs, b'.size_bytes = b'.content_hash.length ∧
          b'.reference_count =
            RefCount (records.filter (fun r => !p r)) b'.content_hash := by
        intro b' hbm'
        have h1 := (hb b' (List.mem_cons_of_mem b hbm')).1
        have h2 := (hb b' (List.mem_cons_of_mem b hbm')).2
        refine ⟨h1, ?_⟩
        have hneq : b'.content_hash ≠ b.content_hash :=
          fun hh => (hpc.1 b' hbm') hh.symm
        have hff : (records.filter (fun r => !p r)).filter
            (fun r => r.content_hash == b'.content_hash) =
            records.filter (fun r => r.content_hash == b'.content_hash) := by
          rw [List.filter_filter]
          refine List.filter_congr ?_
          intro r _
          by_cases hrb : r.content_hash = b'.content_hash
          · have : ¬(r.content_hash = b.content_hash) := by
              rw [hrb]
              exact hneq
            simp [hpdef, hrb, this]
            exact hneq
          · simp [hrb]
        rw [RefCount, hff, ← RefCount]
        exact h2
      have hrs : ∀ r ∈ records.filter (fun r => !p r),
          r.size_bytes = r.content_hash.length ∧
          ∃ b' ∈ bs, b'.content_hash = r.content_hash := by
        intro r hrm
        obtain ⟨hrmem, hnp⟩ := List.mem_filter.1 hrm
        obtain ⟨h1, b', hbm', hbh'⟩ := hr r hrmem
        rcases List.mem_cons.1 hbm' with rfl | hbm'
        · exfalso
          have : p r = true := by simp [hpdef, hbh'.symm]
          simp [this] at hnp
        · exact ⟨h1, b', hbm', hbh'⟩
      rw [hsum, hfirst,
        sum_regroup bs (records.filter (fun r => !p r)) hbs hrs hpc.2]
      simp

/-- In a well-formed store the physical storage never exceeds the
theoretical storage. -/
theorem actual_le_theoretical {s : Store} (hs : WF s) :
    actualStorageBytes s ≤ theoreticalStorageBytes s := by
  obtain ⟨hb, hr, hp⟩ := hs
  have hre := sum_regroup s.blobs s.records
    (fun b hbm => ⟨(hb b hbm).1, (hb b hbm).2.2⟩) hr hp
  unfold actualStorageBytes theoreticalStorageBytes
  rw [hre]
  apply List.sum_le_sum
  intro b hbm
  have h2 := (hb b hbm).2.1
  calc b.size_bytes = 1 * b.size_bytes := (Nat.one_mul _).symm
    _ ≤ b.reference_count * b.size_bytes := Nat.mul_le_mul_right _ h2

/-- C1: after every sequence of uploads and deletes from the empty store,
the metrics snapshot satisfies
`actual_storage_bytes ≤ theoretical_storage_bytes` and
`deduplication_ratio ≥ 1`. -/
theorem C1_storage_invariant (ops : List Op) :
    (metrics (Store.run ops)).summary_metrics.actual_storage_bytes ≤
      (metrics (Store.run ops)).summary_metrics.theoretical_storage_bytes ∧
    1 ≤ (metrics (Store.run ops)).efficiency_metrics.deduplication_ratio := by
  have hwf : WF (Store.run ops) := WF_run ops
  have hle := actual_le_theoretical hwf
  refine ⟨hle, ?_⟩
  show 1 ≤ if actualStorageBytes (Store.run ops) = 0 then (1 : ℚ)
    else (theoreticalStorageBytes (Store.run ops) : ℚ) /
      (actualStorageBytes (Store.run ops) : ℚ)
  by_cases hz : actualStorageBytes (Store.run ops) = 0
  · rw [if_pos hz]
  · rw [if_neg hz]
    have h0 : (0 : ℚ) < (actualStorageBytes (Store.run ops) : ℚ) := by
      exact_mod_cast Nat.pos_of_ne_zero hz
    rw [one_le_div h0]
    exact_mod_cast hle

/-- A fresh upload (no blob under the fingerprint) returns
`created = true`, a non-duplicate record, and installs a blob with
`reference_count = 1`. -/
theorem create_of_findBlob_none {s : Store} {c : Content}
    (h : s.findBlob c = none) (fn ft : String) :
    (RecordCatalog.create s fn ft c).2.2 = true ∧
    (RecordCatalog.create s fn ft c).2.1.is_duplicate = false ∧
    (RecordCatalog.create s fn ft c).1.findBlob c =
      some ⟨c, c.length, 1⟩ := by
  have h' : s.blobs.find? (fun b => b.content_hash == c) = none := h
  refine ⟨?_, ?_, ?_⟩
  · simp [RecordCatalog.create, BlobStore.put, h']
  · simp [RecordCatalog.create, BlobStore.put, h']
  · simp [RecordCatalog.create, BlobStore.put, h', Store.findBlob,
      List.find?_append]

/-- A duplicate upload (a blob already stored under the fingerprint)
returns `created = false`, a duplicate record, and increments the blob's
`reference_count`. -/
theorem create_of_findBlob_some {s : Store} {c : Content} {b : Blob}
    (h : s.findBlob c = some b) (fn ft : String) :
    (RecordCatalog.create s fn ft c).2.2 = false ∧
    (RecordCatalog.create s fn ft c).2.1.is_duplicate = true ∧
    (RecordCatalog.create s fn ft c).1.findBlob c =
      some { b with reference_count := b.reference_count + 1 } := by
  have h' : s.blobs.find? (fun b => b.content_hash == c) = some b := h
  have hb : (b.content_hash == c) = true := by
    have := List.find?_some h'
    simpa using this
  refine ⟨?_, ?_, ?_⟩
  · simp [RecordCatalog.create, BlobStore.put, h']
  · simp [RecordCatalog.create, BlobStore.put, h']
  · have hcomp :
        (fun x : Blob => x.content_hash == c) ∘
          (fun x : Blob =>
            if x.content_hash == c then
              { x with reference_count := x.reference_count + 1 }
            else x) =
        (fun x : Blob => x.content_hash == c) := by
      funext x
      by_cases hx : x.content_hash = c
      · simp [hx]
      · simp [hx]
    have hbp : b.content_hash = c := by simpa using hb
    simp only [RecordCatalog.create, BlobStore.put, h', Store.findBlob]
    rw [List.find?_map, hcomp, h']
    simp [hbp]

/-- After any number of further uploads of the same content, the blob's
reference count has grown by that number and every upload reported a
duplicate. -/
theorem uploadReplicate_of_some (fn ft : String) (c : Content) :
    ∀ (k : Nat) (s : Store) (b : Blob), s.findBlob c = some b →
      (uploadReplicate fn ft c k s).1.findBlob c =
        some { b with reference_count := b.reference_count + k } ∧
      ∀ p ∈ (uploadReplicate fn ft c k s).2,
        p.2 = false ∧ p.1.is_duplicate = true
  | 0, s, b, h => by
      refine ⟨by simpa using h, ?_⟩
      intro p hp
      simp [uploadReplicate] at hp
  | k + 1, s, b, h => by
      obtain ⟨hc, hd, hf⟩ := create_of_findBlob_some h fn ft
      obtain ⟨ih1, ih2⟩ := uploadReplicate_of_some fn ft c k _ _ hf
      constructor
      · show (uploadReplicate fn ft c k
            (RecordCatalog.create s fn ft c).1).1.findBlob c = _
        rw [ih1]
        have heq : b.reference_count + 1 + k = b.reference_count + (k + 1) := by
          omega
        simp [heq]
      · intro p hp
        have hp' : p = ((RecordCatalog.create s fn ft c).2.1,
            (RecordCatalog.create s fn ft c).2.2) ∨
            p ∈ (uploadReplicate fn ft c k
              (RecordCatalog.create s fn ft c).1).2 := by
          simpa [uploadReplicate] using hp
        rcases hp' with rfl | hp'
        · exact ⟨hc, hd⟩
        · exact ih2 p hp'

/-- The replicated upload produces one outcome per upload. -/
theorem uploadReplicate_length (fn ft : String) (c : Content) :
    ∀ (k : Nat) (s : Store), (uploadReplicate fn ft c k s).2.length = k
  | 0, _ => rfl
  | k + 1, s => by
      show ((uploadReplicate fn ft c (k + 1) s).2).length = k + 1
      simp [uploadReplicate, uploadReplicate_length fn ft c k]

/-- C8: K serialized uploads of identical content into a store with no
blob under that fingerprint produce K outcomes of which exactly one has
`created = true`, every record's `is_duplicate` is the negation of its
upload's `created` flag, and the blob ends with `reference_count = K`. -/
theorem C8_concurrent_identical_uploads (K : Nat) (hK : 1 ≤ K) (s : Store)
    (fn ft : String) (c : Content) (h : s.findBlob c = none) :
    (uploadReplicate fn ft c K s).2.length = K ∧
    (uploadReplicate fn ft c K s).2.countP (fun p => p.2) = 1 ∧
    (∀ p ∈ (uploadReplicate fn ft c K s).2,
      p.1.is_duplicate = !p.2) ∧
    ∃ b : Blob, (uploadReplicate fn ft c K s).1.findBlob c = some b ∧
      b.reference_count = K := by
  obtain ⟨k, rfl⟩ : ∃ k, K = k + 1 := ⟨K - 1, by omega⟩
  obtain ⟨hc, hd, hf⟩ := create_of_findBlob_none h fn ft
  obtain ⟨ih1, ih2⟩ := uploadReplicate_of_some fn ft c k _ _ hf
  have hout : (uploadReplicate fn ft c (k + 1) s).2 =
      ((RecordCatalog.create s fn ft c).2.1,
        (RecordCatalog.create s fn ft c).2.2) ::
      (uploadReplicate fn ft c k (RecordCatalog.create s fn ft c).1).2 := rfl
  refine ⟨uploadReplicate_length fn ft c (k + 1) s, ?_, ?_, ?_⟩
  · rw [hout, List.countP_cons]
    have hzero : (uploadReplicate fn ft c k
        (RecordCatalog.create s fn ft c).1).2.countP (fun p => p.2) = 0 := by
      rw [List.countP_eq_zero]
      intro p hp
      simp [(ih2 p hp).1]
    simp [hzero, hc]
  · intro p hp
    rw [hout] at hp
    rcases List.mem_cons.1 hp with rfl | hp'
    · simp [hc, hd]
    · have := ih2 p hp'
      simp [this.1, this.2]
  · refine ⟨_, by
      show (uploadReplicate fn ft c k
        (RecordCatalog.create s fn ft c).1).1.findBlob c = _
      exact ih1, ?_⟩
    simp [Nat.add_comm]

/-- Witness for C8: two uploads of the same content into the empty
store. -/
theorem C8_concurrent_identical_uploads_witness :
    1 ≤ 2 ∧ Store.empty.findBlob [0] = none ∧
    ((uploadReplicate "a" "t" [0] 2 Store.empty).2.length = 2 ∧
     (uploadReplicate "a" "t" [0] 2 Store.empty).2.countP
       (fun p => p.2) = 1 ∧
     (∀ p ∈ (uploadReplicate "a" "t" [0] 2 Store.empty).2,
       p.1.is_duplicate = !p.2) ∧
     ∃ b : Blob,
       (uploadReplicate "a" "t" [0] 2 Store.empty).1.findBlob [0] = some b ∧
       b.reference_count = 2) :=
  ⟨by decide, by decide,
   C8_concurrent_identical_uploads 2 (by decide) Store.empty "a" "t" [0]
     (by decide)⟩

/-- Witness for C9 at a concrete window. -/
theorem C9_getPageRange_window_witness :
    (1 : Int) ≤ 2 ∧ (1 : Int) ≤ 3 ∧ (1 : Int) ≤ 5 ∧
    ((getPageRange 2 3 5).Chain' (fun a b => b = a + 1) ∧
     (getPageRange 2 3 5).length ≤ (5 : Int).toNat ∧
     (∀ x ∈ getPageRange 2 3 5, 1 ≤ x ∧ x ≤ 3) ∧
     ((2 : Int) ≤ 3 → (2 : Int) ∈ getPageRange 2 3 5)) :=
  ⟨by decide, by decide, by decide,
   C9_getPageRange_window 2 3 5 (by decide) (by decide) (by decide)⟩

end FileHub
